import Mathlib

/-!
Shallow embedding of the 2d-platform-engine core (TypeScript) in Lean 4:
the fixed-step scheduler (`src/engine/core/Engine.ts`), the capability-scoped
service registry (`src/engine/core/Services.ts`), the typed event bus
(`createEventBus`), the per-pass render queue
(`src/modules/render-coordinator/service.ts`) and the render coordinator's
cull/sort/batch pipeline (`src/modules/render-coordinator/index.ts`).

JavaScript numbers are modelled as exact rationals (`ℚ`), strings as `String`,
`Map`s as association lists with first-match lookup and in-place replacement,
and functions that `throw` as `Except`-returning functions.
-/

namespace Platform2D

/-! ### Association-list model of a JS `Map`

`getEntry` is `Map.get` (first match), `setEntry` is `Map.set` (replace in
place, append if absent), `delEntry` is `Map.delete`. -/

/-- Lookup in a JS `Map` modelled as an association list: first matching key. -/
def getEntry {A : Type} (m : List (String × A)) (k : String) : Option A :=
  (m.find? (fun p => p.1 == k)).map Prod.snd

/-- JS `Map.set`: replace the first binding of `k` in place, else append. -/
def setEntry {A : Type} : List (String × A) → String → A → List (String × A)
  | [], k, v => [(k, v)]
  | (k₀, v₀) :: t, k, v =>
      if k₀ == k then (k, v) :: t else (k₀, v₀) :: setEntry t k v

/-- JS `Map.delete`: remove the first binding of `k`. -/
def delEntry {A : Type} : List (String × A) → String → List (String × A)
  | [], _ => []
  | (k₀, v₀) :: t, k => if k₀ == k then t else (k₀, v₀) :: delEntry t k

/-- JS `Map.has`. -/
def hasEntry {A : Type} (m : List (String × A)) (k : String) : Bool :=
  (getEntry m k).isSome

theorem getEntry_setEntry_self {A : Type} (m : List (String × A)) (k : String) (v : A) :
    getEntry (setEntry m k v) k = some v := by
  induction m with
  | nil => simp [getEntry, setEntry]
  | cons p t ih =>
    obtain ⟨k₀, v₀⟩ := p
    by_cases h : k₀ == k
    · simp [getEntry, setEntry, h]
    · simp only [setEntry, h, if_false]
      simpa [getEntry, List.find?, h] using ih

theorem getEntry_setEntry_ne {A : Type} (m : List (String × A)) (k k' : String) (v : A)
    (h : k ≠ k') : getEntry (setEntry m k v) k' = getEntry m k' := by
  have hkk : (k == k') = false := beq_eq_false_iff_ne.mpr h
  induction m with
  | nil => simp [getEntry, setEntry, List.find?, hkk]
  | cons p t ih =>
    obtain ⟨k₀, v₀⟩ := p
    by_cases h₀ : k₀ == k
    · have hk₀ : k₀ = k := by simpa using h₀
      subst hk₀
      simp [getEntry, setEntry, List.find?, hkk]
    · simp only [setEntry, h₀, if_false]
      by_cases h₁ : k₀ == k'
      · simp [getEntry, List.find?, h₁]
      · simp only [getEntry, List.find?, h₁] at ih ⊢
        exact ih

/-! ### Render-command data model (`src/engine/core/primitives/render.ts`) -/

/-- Coordinate space of a pass or command: `"world"` (meters) or `"ui"` (pixels). -/
inductive RenderSpace where
  | world
  | ui
deriving DecidableEq, Repr

/-- Axis-aligned bounding box `{x, y, w, h}`. -/
structure Aabb where
  x : ℚ
  y : ℚ
  w : ℚ
  h : ℚ
deriving DecidableEq, Repr

/-- The fields of `RenderCommon` plus the `kind` discriminant.  The
kind-specific geometry payloads (`x/y/w/h/r/text/...`) are carried by the
commands in the source but are never inspected by the queue or the
coordinator, so they are not part of the embedding. -/
structure RenderCmd where
  id : Option String
  passId : String
  space : RenderSpace
  layer : String
  z : Option ℚ
  renderMaterial : String
  aabb : Option Aabb
  kind : String
deriving DecidableEq, Repr

/-! ### Render queue (`src/modules/render-coordinator/service.ts`,
`createRenderQueueService`) -/

/-- The `byPass` map: pass id → buffered commands. -/
abbrev QueueState : Type := List (String × List RenderCmd)

/-- The buffer currently held for a pass (`byPass.get(id) ?? []`). -/
def qBuffer (q : QueueState) (passId : String) : List RenderCmd :=
  (getEntry q passId).getD []

/-- Source `registerPass(id)`: pre-create an empty buffer if the id is unknown. -/
def qRegisterPass (q : QueueState) (passId : String) : QueueState :=
  if hasEntry q passId then q else setEntry q passId []

/-- Source `push(cmd)`: append `cmd` to the buffer named by `cmd.passId`,
auto-creating the buffer. -/
def qPush (q : QueueState) (cmd : RenderCmd) : QueueState :=
  setEntry q cmd.passId (qBuffer q cmd.passId ++ [cmd])

/-- Source `pushMany(cmds)`: `push` each command in order. -/
def qPushMany (q : QueueState) (cmds : List RenderCmd) : QueueState :=
  cmds.foldl qPush q

/-- Source `clearPass(id)`: empty the buffer without returning it. -/
def qClearPass (q : QueueState) (passId : String) : QueueState :=
  setEntry q passId []

/-- Source `drain(id)`: return the buffer's contents and replace it with an empty
buffer. -/
def qDrain (q : QueueState) (passId : String) : List RenderCmd × QueueState :=
  (qBuffer q passId, setEntry q passId [])

theorem qBuffer_setEntry_self (q : QueueState) (k : String) (v : List RenderCmd) :
    qBuffer (setEntry q k v) k = v := by
  simp [qBuffer, getEntry_setEntry_self]

theorem qBuffer_setEntry_ne (q : QueueState) (k k' : String) (v : List RenderCmd)
    (h : k ≠ k') : qBuffer (setEntry q k v) k' = qBuffer q k' := by
  simp [qBuffer, getEntry_setEntry_ne _ _ _ _ h]

/-- The buffer after a `push`: appended for the command's own pass, untouched
for every other pass. -/
theorem qBuffer_qPush (q : QueueState) (c : RenderCmd) (passId : String) :
    qBuffer (qPush q c) passId =
      if c.passId = passId then qBuffer q passId ++ [c] else qBuffer q passId := by
  by_cases h : c.passId = passId
  · subst h
    simp [qPush, qBuffer_setEntry_self]
  · simp [qPush, h, qBuffer_setEntry_ne _ _ _ _ h]

/-- The buffer after `pushMany`: the pushed commands targeting the pass are
appended, in order; other passes are untouched. -/
theorem qBuffer_qPushMany (cs : List RenderCmd) (q : QueueState) (passId : String) :
    qBuffer (qPushMany q cs) passId =
      qBuffer q passId ++ cs.filter (fun c => c.passId == passId) := by
  induction cs generalizing q with
  | nil => simp [qPushMany]
  | cons c t ih =>
    simp only [qPushMany, List.foldl_cons] at ih ⊢
    rw [ih (qPush q c), qBuffer_qPush]
    by_cases h : c.passId = passId
    · simp [h, List.filter_cons]
    · simp [h, List.filter_cons, beq_eq_false_iff_ne.mpr h]

/-- A submission operation against the queue's write port. -/
inductive QueueOp where
  | push (c : RenderCmd)
  | pushMany (cs : List RenderCmd)

/-- The commands an operation appends, in submission order. -/
def opCmds : QueueOp → List RenderCmd
  | .push c => [c]
  | .pushMany cs => cs

/-- Run one write-port operation against the queue. -/
def applyOp (q : QueueState) : QueueOp → QueueState
  | .push c => qPush q c
  | .pushMany cs => qPushMany q cs

/-- Run a sequence of write-port operations left to right. -/
def applyOps (q : QueueState) (ops : List QueueOp) : QueueState :=
  ops.foldl applyOp q

/-- All commands submitted by `ops` whose `passId` is `passId`, in
submission order. -/
def cmdsFor (passId : String) (ops : List QueueOp) : List RenderCmd :=
  ((ops.map opCmds).flatten).filter (fun c => c.passId == passId)

theorem qBuffer_applyOp (q : QueueState) (op : QueueOp) (passId : String) :
    qBuffer (applyOp q op) passId =
      qBuffer q passId ++ (opCmds op).filter (fun c => c.passId == passId) := by
  cases op with
  | push c =>
    rw [applyOp, qBuffer_qPush]
    by_cases h : c.passId = passId
    · simp [h, opCmds, List.filter_cons]
    · simp [h, opCmds, List.filter_cons, beq_eq_false_iff_ne.mpr h]
  | pushMany cs => simpa [applyOp, opCmds] using qBuffer_qPushMany cs q passId

theorem qBuffer_applyOps (ops : List QueueOp) (q : QueueState) (passId : String) :
    qBuffer (applyOps q ops) passId = qBuffer q passId ++ cmdsFor passId ops := by
  induction ops generalizing q with
  | nil => simp [applyOps, cmdsFor]
  | cons op t ih =>
    simp only [applyOps, List.foldl_cons] at ih ⊢
    rw [ih (applyOp q op), qBuffer_applyOp]
    simp [cmdsFor, List.filter_append]

/-- C6 — Render-queue drain round-trip: from a state whose buffer for the
command's pass is empty, `push cmd` then `drain` returns exactly `[cmd]`, a
second `drain` with no intervening push returns `[]`, and `drain` always
leaves the drained pass's buffer empty. -/
theorem renderqueue_drain_roundtrip (q : QueueState) (cmd : RenderCmd) (passId : String)
    (hp : cmd.passId = passId) (hempty : qBuffer q passId = []) :
    (qDrain (qPush q cmd) passId).1 = [cmd] ∧
    (qDrain (qDrain (qPush q cmd) passId).2 passId).1 = [] ∧
    (∀ (q' : QueueState) (id : String), qBuffer (qDrain q' id).2 id = []) := by
  subst hp
  refine ⟨?_, ?_, ?_⟩
  · simp [qDrain, qBuffer_qPush, hempty]
  · simp [qDrain, qBuffer_setEntry_self]
  · intro q' id
    simp [qDrain, qBuffer_setEntry_self]

/-- Witness for C6 at a concrete queue and command. -/
theorem renderqueue_drain_roundtrip_witness :
    (qDrain (qPush [] ⟨none, "world", .world, "actors", none, "flat/blue", none, "rect"⟩)
        "world").1 =
      [⟨none, "world", .world, "actors", none, "flat/blue", none, "rect"⟩] :=
  (renderqueue_drain_roundtrip []
      ⟨none, "world", .world, "actors", none, "flat/blue", none, "rect"⟩
      "world" rfl rfl).1

/-- C10 — Drain preserves submission order: for every starting state and
sequence of `push`/`pushMany` operations, `drain passId` returns the
starting buffer followed by exactly the commands submitted for that pass, in
submission order — nothing reordered, dropped, duplicated or modified — and
leaves the drained buffer empty. -/
theorem renderqueue_drain_preserves_order (q : QueueState) (ops : List QueueOp)
    (passId : String) :
    (qDrain (applyOps q ops) passId).1 = qBuffer q passId ++ cmdsFor passId ops ∧
    qBuffer (qDrain (applyOps q ops) passId).2 passId = [] := by
  constructor
  · simpa [qDrain] using qBuffer_applyOps ops q passId
  · simp [qDrain, qBuffer_setEntry_self]

/-! ### Service registry (`src/engine/core/Services.ts`)

Tokens carry a `unique symbol` key; symbol identity is modelled by `ℕ`.
Stored implementations are arbitrary JavaScript values, modelled by `JSValue`
so that the truthiness test in `getOrThrow` (`if (!v) throw ...`) is
expressible. -/

/-- A JavaScript runtime value, as far as the registry observes one:
identity (`DecidableEq`) and truthiness. Objects are identified by a ref id. -/
inductive JSValue where
  | undef
  | vnull
  | vbool (b : Bool)
  | vnum (q : ℚ)
  | vstr (s : String)
  | obj (ref : ℕ)
deriving DecidableEq, Repr

/-- JavaScript truthiness: `undefined`, `null`, `false`, `0` and `""` are
falsy; every other value (in particular every object) is truthy. -/
def JSValue.truthy : JSValue → Bool
  | .undef => false
  | .vnull => false
  | .vbool b => b
  | .vnum q => !(q == 0)
  | .vstr s => !(s == "")
  | .obj _ => true

/-- The registry error taxonomy observable from `get`/`getOrThrow`. -/
inductive SvcError where
  | missingService (tokenKey : ℕ)
  | unauthorizedAccess (tokenKey : ℕ)
deriving DecidableEq, Repr

/-- The `bag : Map<symbol, unknown>`; most recent `set` first. -/
abbrev Bag : Type := List (ℕ × JSValue)

/-- Source `get(t)`: the value stored for the token's key, or absent. -/
def svcGet (bag : Bag) (t : ℕ) : Option JSValue :=
  (bag.find? (fun p => p.1 == t)).map Prod.snd

/-- Source `set(t, v)`: store `v` under the token's key (last write wins). -/
def svcSet (bag : Bag) (t : ℕ) (v : JSValue) : Bag :=
  (t, v) :: bag

/-- Source `has(t)`: non-failing existence probe. -/
def svcHas (bag : Bag) (t : ℕ) : Bool :=
  (svcGet bag t).isSome

/-- Source `getOrThrow(t)`: `const v = get(t); if (!v) throw Missing; return v`. -/
def svcGetOrThrow (bag : Bag) (t : ℕ) : Except SvcError JSValue :=
  match svcGet bag t with
  | some v => if v.truthy then .ok v else .error (.missingService t)
  | none => .error (.missingService t)

/-- The restricted view's `get` (`guard`): absent unless whitelisted. -/
def viewGet (bag : Bag) (whitelist : List ℕ) (t : ℕ) : Option JSValue :=
  if t ∈ whitelist then svcGet bag t else none

/-- The restricted view's `getOrThrow` (`guardOrThrow`): `UnauthorizedAccess`
unless whitelisted, else the unrestricted `getOrThrow`. -/
def viewGetOrThrow (bag : Bag) (whitelist : List ℕ) (t : ℕ) : Except SvcError JSValue :=
  if t ∈ whitelist then svcGetOrThrow bag t else .error (.unauthorizedAccess t)

/-- The restricted view's `has` (`hasGuarded`). -/
def viewHas (bag : Bag) (whitelist : List ℕ) (t : ℕ) : Bool :=
  decide (t ∈ whitelist) && svcHas bag t

/-- C2 — Capability-view scoping: a whitelisted token reads exactly what the
unrestricted registry reads; a non-whitelisted token reads as absent and
`getOrThrow` fails with `UnauthorizedAccess`, even when the token is
registered in the underlying bag. -/
theorem services_view_scoping (bag : Bag) (whitelist : List ℕ) (t : ℕ) :
    (t ∈ whitelist → viewGet bag whitelist t = svcGet bag t) ∧
    (t ∉ whitelist →
      viewGet bag whitelist t = none ∧
      viewGetOrThrow bag whitelist t = .error (.unauthorizedAccess t)) := by
  constructor
  · intro h
    simp [viewGet, h]
  · intro h
    exact ⟨by simp [viewGet, h], by simp [viewGetOrThrow, h]⟩

/-- Witness for C2: token 1 whitelisted, token 2 registered but not
whitelisted. -/
theorem services_view_scoping_witness :
    (viewGet (svcSet (svcSet [] 2 (.obj 7)) 1 (.obj 5)) [1] 1 = some (.obj 5)) ∧
    (viewGet (svcSet (svcSet [] 2 (.obj 7)) 1 (.obj 5)) [1] 2 = none) ∧
    (viewGetOrThrow (svcSet (svcSet [] 2 (.obj 7)) 1 (.obj 5)) [1] 2 =
      .error (.unauthorizedAccess 2)) := by
  refine ⟨?_, ?_, ?_⟩
  · rw [(services_view_scoping (svcSet (svcSet [] 2 (.obj 7)) 1 (.obj 5)) [1] 1).1
      (by decide)]
    decide
  · exact ((services_view_scoping (svcSet (svcSet [] 2 (.obj 7)) 1 (.obj 5)) [1] 2).2
      (by decide)).1
  · exact ((services_view_scoping (svcSet (svcSet [] 2 (.obj 7)) 1 (.obj 5)) [1] 2).2
      (by decide)).2

/-- C8 counterexample — `getOrThrow` does not raise exactly on unregistered
tokens: token 0 is registered (value `false`, so `has` is `true`), yet
`getOrThrow` fails with `MissingService`, because the source tests
truthiness (`if (!v)`), not registration. -/
theorem services_getOrThrow_falsy_counterexample :
    svcHas (svcSet [] 0 (.vbool false)) 0 = true ∧
    svcGetOrThrow (svcSet [] 0 (.vbool false)) 0 = .error (.missingService 0) :=
  ⟨rfl, rfl⟩

/-- C8 amended — `getOrThrow` returns the most recently stored value whenever
that value is truthy, and fails with a `MissingService` error identifying the
token exactly when the token's current value is absent or falsy (in
particular, whenever the token was never registered). -/
theorem services_getOrThrow_semantics (bag : Bag) (t : ℕ) :
    (∀ v : JSValue, v.truthy → svcGetOrThrow (svcSet bag t v) t = .ok v) ∧
    (svcGet bag t = none → svcGetOrThrow bag t = .error (.missingService t)) ∧
    (svcGetOrThrow bag t = .error (.missingService t) ↔
      (svcGet bag t = none ∨ ∃ v : JSValue, svcGet bag t = some v ∧ v.truthy = false)) := by
  refine ⟨?_, ?_, ?_⟩
  · intro v hv
    simp [svcGetOrThrow, svcGet, svcSet, List.find?, hv]
  · intro h
    simp [svcGetOrThrow, h]
  · cases hv : svcGet bag t with
    | none => simp [svcGetOrThrow, hv]
    | some v =>
      cases ht : v.truthy with
      | false => simp [svcGetOrThrow, hv, ht]
      | true => simp [svcGetOrThrow, hv, ht]

/-- Witness for C8 (amended) at a concrete bag. -/
theorem services_getOrThrow_semantics_witness :
    svcGetOrThrow (svcSet [] 3 (.obj 9)) 3 = .ok (.obj 9) :=
  (services_getOrThrow_semantics [] 3).1 (.obj 9) (by decide)

/-! ### Event bus (`createEventBus`)

Handlers are identified by `ℕ`; the `Map<type, Set<handler>>` is an
association list of duplicate-free handler lists. A handler's observable
effect on the bus while it runs is a list of subscribe/unsubscribe
operations, supplied by an environment `ℕ → List BusOp`. -/

/-- The handler table: event type → subscribed handler ids, in insertion
order (a JS `Set` iterates in insertion order). -/
abbrev BusState : Type := List (String × List ℕ)

/-- The handlers currently subscribed to an event type. -/
def subscribers (st : BusState) (ty : String) : List ℕ :=
  (getEntry st ty).getD []

/-- Source `on(type, handler)`: add to the type's `Set` (deduplicated), creating the
entry if absent. -/
def busOn (st : BusState) (ty : String) (h : ℕ) : BusState :=
  setEntry st ty
    (if h ∈ subscribers st ty then subscribers st ty else subscribers st ty ++ [h])

/-- The unsubscribe closure returned by `on`: delete the handler from the
type's current `Set`, and drop the map entry if it became empty. -/
def busOff (st : BusState) (ty : String) (h : ℕ) : BusState :=
  match getEntry st ty with
  | none => st
  | some s =>
      if s.erase h = [] then delEntry st ty else setEntry st ty (s.erase h)

/-- A bus mutation a handler may perform while it runs. -/
inductive BusOp where
  | sub (ty : String) (h : ℕ)
  | unsub (ty : String) (h : ℕ)

/-- Apply one subscribe/unsubscribe operation. -/
def applyBusOp (st : BusState) : BusOp → BusState
  | .sub ty h => busOn st ty h
  | .unsub ty h => busOff st ty h

/-- Apply a handler's operations left to right. -/
def runBusOps (st : BusState) (ops : List BusOp) : BusState :=
  ops.foldl applyBusOp st

/-- Source `emit(ev)`: snapshot the handler set for `ev.type`, then invoke each
snapshotted handler in order, threading its bus mutations; returns the final
bus state and the list of invoked handlers. -/
def busEmit (env : ℕ → List BusOp) (st : BusState) (ty : String) :
    BusState × List ℕ :=
  ((subscribers st ty).foldl (fun s h => runBusOps s (env h)) st, subscribers st ty)

/-- Well-formedness maintained by the bus: the `Map` has no duplicate keys
and every handler `Set` is duplicate-free. -/
def BusWF (st : BusState) : Prop :=
  (st.map Prod.fst).Nodup ∧ ∀ p ∈ st, p.2.Nodup

theorem mem_setEntry {A : Type} {m : List (String × A)} {k : String} {v : A} {p : String × A}
    (h : p ∈ setEntry m k v) : p = (k, v) ∨ p ∈ m := by
  induction m with
  | nil => simpa [setEntry] using h
  | cons q t ih =>
    obtain ⟨k₀, v₀⟩ := q
    by_cases h₀ : (k₀ == k) = true
    · simp only [setEntry, h₀, if_true, List.mem_cons] at h
      rcases h with h | h
      · exact Or.inl h
      · exact Or.inr (List.mem_cons_of_mem _ h)
    · simp only [setEntry] at h
      rw [if_neg h₀] at h
      rcases List.mem_cons.mp h with h | h
      · exact Or.inr (by simp [h])
      · rcases ih h with h' | h'
        · exact Or.inl h'
        · exact Or.inr (List.mem_cons_of_mem _ h')

theorem keys_setEntry_sub {A : Type} {m : List (String × A)} {k x : String} {v : A}
    (h : x ∈ (setEntry m k v).map Prod.fst) : x ∈ m.map Prod.fst ∨ x = k := by
  rcases List.mem_map.mp h with ⟨p, hp, hx⟩
  rcases mem_setEntry hp with h' | h'
  · right; rw [← hx, h']
  · left; exact List.mem_map.mpr ⟨p, h', hx⟩

theorem nodup_keys_setEntry {A : Type} (m : List (String × A)) (k : String) (v : A)
    (h : (m.map Prod.fst).Nodup) : ((setEntry m k v).map Prod.fst).Nodup := by
  induction m with
  | nil => simp [setEntry]
  | cons q t ih =>
    obtain ⟨k₀, v₀⟩ := q
    simp only [List.map_cons, List.nodup_cons] at h
    by_cases h₀ : k₀ == k
    · have hk : k₀ = k := by simpa using h₀
      subst hk
      simpa [setEntry] using h
    · have hk : k₀ ≠ k := by simpa using h₀
      simp only [setEntry]
      rw [if_neg h₀]
      simp only [List.map_cons, List.nodup_cons]
      refine ⟨?_, ih h.2⟩
      intro hmem
      rcases keys_setEntry_sub hmem with h' | h'
      · exact h.1 h'
      · exact hk h'

theorem mem_delEntry {A : Type} {m : List (String × A)} {k : String} {p : String × A}
    (h : p ∈ delEntry m k) : p ∈ m := by
  induction m with
  | nil => simp [delEntry] at h
  | cons q t ih =>
    obtain ⟨k₀, v₀⟩ := q
    by_cases h₀ : (k₀ == k) = true
    · simp only [delEntry, h₀, if_true] at h
      exact List.mem_cons_of_mem _ h
    · simp only [delEntry] at h
      rw [if_neg h₀] at h
      rcases List.mem_cons.mp h with h | h
      · simp [h]
      · exact List.mem_cons_of_mem _ (ih h)

theorem keys_delEntry_sublist {A : Type} (m : List (String × A)) (k : String) :
    List.Sublist ((delEntry m k).map Prod.fst) (m.map Prod.fst) := by
  induction m with
  | nil => simp [delEntry]
  | cons q t ih =>
    obtain ⟨k₀, v₀⟩ := q
    by_cases h₀ : (k₀ == k) = true
    · simp only [delEntry, h₀, if_true, List.map_cons]
      exact List.sublist_cons_self _ _
    · simp only [delEntry]
      rw [if_neg h₀]
      simpa using ih.cons₂ k₀

theorem subscribers_nodup {st : BusState} {ty : String} (h : BusWF st) :
    (subscribers st ty).Nodup := by
  unfold subscribers getEntry
  cases hf : st.find? (fun p => p.1 == ty) with
  | none => simp
  | some p =>
    have hp : p ∈ st := List.mem_of_find?_eq_some hf
    simpa using h.2 p hp

theorem busWF_setEntry {st : BusState} {ty : String} {s : List ℕ}
    (h : BusWF st) (hs : s.Nodup) : BusWF (setEntry st ty s) := by
  refine ⟨nodup_keys_setEntry _ _ _ h.1, ?_⟩
  intro p hp
  rcases mem_setEntry hp with h' | h'
  · rw [h']; exact hs
  · exact h.2 p h'

theorem busWF_busOn (st : BusState) (ty : String) (hid : ℕ) (h : BusWF st) :
    BusWF (busOn st ty hid) := by
  unfold busOn
  by_cases hmem : hid ∈ subscribers st ty
  · simpa [hmem] using busWF_setEntry h (subscribers_nodup h)
  · have : (subscribers st ty ++ [hid]).Nodup := by
      have hn : (subscribers st ty).Nodup := subscribers_nodup h
      simp [List.nodup_append, hn, hmem]
    simpa [hmem] using busWF_setEntry h this

theorem busWF_busOff (st : BusState) (ty : String) (hid : ℕ) (h : BusWF st) :
    BusWF (busOff st ty hid) := by
  unfold busOff
  cases hf : getEntry st ty with
  | none => exact h
  | some s =>
    have hsn : s.Nodup := by
      unfold getEntry at hf
      cases hff : st.find? (fun p => p.1 == ty) with
      | none => rw [hff] at hf; simp at hf
      | some p =>
        rw [hff] at hf
        simp at hf
        have hp : p ∈ st := List.mem_of_find?_eq_some hff
        rw [← hf]
        exact h.2 p hp
    show BusWF (if s.erase hid = [] then delEntry st ty else setEntry st ty (s.erase hid))
    by_cases he : s.erase hid = []
    · rw [if_pos he]
      refine ⟨h.1.sublist (keys_delEntry_sublist st ty), ?_⟩
      intro p hp
      exact h.2 p (mem_delEntry hp)
    · rw [if_neg he]
      exact busWF_setEntry h (hsn.erase hid)

theorem busWF_applyBusOp (st : BusState) (op : BusOp) (h : BusWF st) :
    BusWF (applyBusOp st op) := by
  cases op with
  | sub ty hid => exact busWF_busOn st ty hid h
  | unsub ty hid => exact busWF_busOff st ty hid h

theorem busWF_runBusOps (ops : List BusOp) (st : BusState) (h : BusWF st) :
    BusWF (runBusOps st ops) := by
  induction ops generalizing st with
  | nil => simpa [runBusOps] using h
  | cons op t ih =>
    simp only [runBusOps, List.foldl_cons] at ih ⊢
    exact ih (applyBusOp st op) (busWF_applyBusOp st op h)

theorem busWF_foldl_handlers (env : ℕ → List BusOp) (hs : List ℕ) (st : BusState)
    (h : BusWF st) : BusWF (hs.foldl (fun s hid => runBusOps s (env hid)) st) := by
  induction hs generalizing st with
  | nil => simpa using h
  | cons x t ih =>
    simp only [List.foldl_cons]
    exact ih (runBusOps st (env x)) (busWF_runBusOps (env x) st h)

/-- C7 — Event-bus snapshot dispatch: on a well-formed bus, `emit` invokes
exactly the handlers subscribed to the event's type at the moment `emit` is
called, each exactly once; the invoked set does not depend on what the
handlers (un)subscribe while the dispatch is in flight, and their mutations
leave the bus well-formed for subsequent emits. -/
theorem eventbus_snapshot_dispatch (env : ℕ → List BusOp) (st : BusState) (ty : String)
    (hwf : BusWF st) :
    (busEmit env st ty).2 = subscribers st ty ∧
    (busEmit env st ty).2.Nodup ∧
    (∀ env₂ : ℕ → List BusOp, (busEmit env₂ st ty).2 = (busEmit env st ty).2) ∧
    BusWF (busEmit env st ty).1 := by
  refine ⟨rfl, ?_, fun env₂ => rfl, ?_⟩
  · exact subscribers_nodup hwf
  · exact busWF_foldl_handlers env (subscribers st ty) st hwf

/-- Witness for C7: two handlers subscribed to "tick"; the first unsubscribes
the second while the dispatch is in flight, yet both are invoked. -/
theorem eventbus_snapshot_dispatch_witness :
    (busEmit (fun hid => if hid = 1 then [.unsub "tick" 2] else [])
        (busOn (busOn [] "tick" 1) "tick" 2) "tick").2 = [1, 2] := by
  rw [(eventbus_snapshot_dispatch (fun hid => if hid = 1 then [.unsub "tick" 2] else [])
      (busOn (busOn [] "tick" 1) "tick" 2) "tick"
      (by unfold BusWF; constructor <;> decide)).1]
  decide

/-! ### Scheduler (`src/engine/core/Engine.ts`, `Engine.frame`)

The catch-up loop

```
while (time.accumulator >= time.fixedStep) { ...update...; time.accumulator -= time.fixedStep }
```

is embedded as `catchUp`, structurally recursive on the exact number of
iterations the loop performs (`⌊acc / fs⌋.toNat`); `catchUp_eq` certifies
that it satisfies the loop's defining equation for every positive
`fixedStep`. -/

/-- The catch-up loop body, fuelled: subtract `fs` while `fs ≤ acc`, counting
the subtractions (update rounds). -/
def catchUpGo (fs : ℚ) : ℕ → ℚ → ℚ × ℕ
  | 0, acc => (acc, 0)
  | n + 1, acc =>
    if fs ≤ acc then
      let p := catchUpGo fs n (acc - fs)
      (p.1, p.2 + 1)
    else (acc, 0)

/-- The catch-up loop: final accumulator and the number of update rounds. -/
def catchUp (fs : ℚ) (acc : ℚ) : ℚ × ℕ :=
  catchUpGo fs (⌊acc / fs⌋.toNat) acc

theorem sub_div_self_floor (fs acc : ℚ) (hfs : 0 < fs) :
    ⌊(acc - fs) / fs⌋ = ⌊acc / fs⌋ - 1 := by
  have h2 : (acc - fs) / fs = acc / fs - 1 := by
    field_simp
  rw [h2]
  exact_mod_cast Int.floor_sub_int (acc / fs) 1

theorem one_le_floor_of_le (fs acc : ℚ) (hfs : 0 < fs) (h : fs ≤ acc) :
    1 ≤ ⌊acc / fs⌋ := by
  have h1 : (1 : ℚ) ≤ acc / fs := (one_le_div hfs).mpr h
  exact_mod_cast Int.le_floor.mpr (by exact_mod_cast h1)

/-- The defining equation of the `while` loop: `catchUp` runs one iteration
when `fs ≤ acc` and stops otherwise. -/
theorem catchUp_eq (fs acc : ℚ) (hfs : 0 < fs) :
    catchUp fs acc =
      if fs ≤ acc then
        ((catchUp fs (acc - fs)).1, (catchUp fs (acc - fs)).2 + 1)
      else (acc, 0) := by
  by_cases h : fs ≤ acc
  · rw [if_pos h]
    unfold catchUp
    have h1 : ⌊acc / fs⌋.toNat = ⌊(acc - fs) / fs⌋.toNat + 1 := by
      have h2 := sub_div_self_floor fs acc hfs
      have h3 := one_le_floor_of_le fs acc hfs h
      omega
    rw [h1]
    simp [catchUpGo, h]
  · rw [if_neg h]
    unfold catchUp
    cases hn : ⌊acc / fs⌋.toNat with
    | zero => rfl
    | succ n => simp [catchUpGo, h]

theorem catchUpGo_fst_sub (fs : ℚ) (n : ℕ) (acc : ℚ) :
    (catchUpGo fs n acc).1 = acc - ((catchUpGo fs n acc).2 : ℚ) * fs := by
  induction n generalizing acc with
  | zero => simp [catchUpGo]
  | succ n ih =>
    by_cases h : fs ≤ acc
    · simp only [catchUpGo, if_pos h]
      rw [ih (acc - fs)]
      push_cast
      ring
    · simp [catchUpGo, if_neg h]

theorem catchUpGo_fst_nonneg (fs : ℚ) (n : ℕ) (acc : ℚ) (h0 : 0 ≤ acc) :
    0 ≤ (catchUpGo fs n acc).1 := by
  induction n generalizing acc with
  | zero => simpa [catchUpGo] using h0
  | succ n ih =>
    by_cases h : fs ≤ acc
    · simp only [catchUpGo, if_pos h]
      exact ih (acc - fs) (sub_nonneg.mpr h)
    · simpa [catchUpGo, if_neg h] using h0

theorem catchUpGo_fst_lt (fs : ℚ) (hfs : 0 < fs) (n : ℕ) (acc : ℚ)
    (hfuel : ⌊acc / fs⌋.toNat ≤ n) : (catchUpGo fs n acc).1 < fs := by
  induction n generalizing acc with
  | zero =>
    have h1 : ⌊acc / fs⌋ ≤ 0 := by omega
    have h2 : acc / fs < 1 := by
      by_contra hcon
      push_neg at hcon
      have := one_le_floor_of_le fs acc hfs ((one_le_div hfs).mp hcon)
      omega
    simpa [catchUpGo] using (div_lt_one hfs).mp h2
  | succ n ih =>
    by_cases h : fs ≤ acc
    · simp only [catchUpGo, if_pos h]
      refine ih (acc - fs) ?_
      have h2 := sub_div_self_floor fs acc hfs
      omega
    · push_neg at h
      simpa [catchUpGo, if_neg (not_le.mpr h)] using h

theorem catchUp_fst_nonneg (fs acc : ℚ) (h0 : 0 ≤ acc) : 0 ≤ (catchUp fs acc).1 :=
  catchUpGo_fst_nonneg fs _ acc h0

theorem catchUp_fst_lt (fs : ℚ) (hfs : 0 < fs) (acc : ℚ) : (catchUp fs acc).1 < fs :=
  catchUpGo_fst_lt fs hfs _ acc le_rfl

theorem catchUp_fst_sub (fs acc : ℚ) :
    (catchUp fs acc).1 = acc - ((catchUp fs acc).2 : ℚ) * fs :=
  catchUpGo_fst_sub fs _ acc

/-- What one frame tick leaves behind: the post-loop accumulator, the alpha
passed to every module's render hook that tick, and the number of update
rounds run. -/
structure TickOut where
  acc : ℚ
  alpha : ℚ
  rounds : ℕ
deriving DecidableEq, Repr

/-- Run a sequence of frame ticks (each `dtMs` is the wall-clock delta in
milliseconds): per tick, `accumulator += dtMs / 1000`, then the catch-up
loop, then `alpha = accumulator / fixedStep`. Returns the final accumulator
and the per-tick outcomes in order. -/
def runFrames (fs : ℚ) (acc : ℚ) : List ℚ → ℚ × List TickOut
  | [] => (acc, [])
  | dtMs :: rest =>
    let p := catchUp fs (acc + dtMs / 1000)
    let r := runFrames fs p.1 rest
    (r.1, ⟨p.1, p.1 / fs, p.2⟩ :: r.2)

theorem runFrames_spec (fs : ℚ) (hfs : 0 < fs) :
    ∀ dts : List ℚ, (∀ d ∈ dts, 0 ≤ d) → ∀ acc : ℚ, 0 ≤ acc → acc < fs →
      0 ≤ (runFrames fs acc dts).1 ∧ (runFrames fs acc dts).1 < fs ∧
      (runFrames fs acc dts).1 =
        acc + dts.sum / 1000 -
          ((((runFrames fs acc dts).2.map TickOut.rounds).sum : ℕ) : ℚ) * fs ∧
      (∀ t ∈ (runFrames fs acc dts).2,
        t.alpha = t.acc / fs ∧ 0 ≤ t.acc ∧ t.acc < fs) := by
  intro dts
  induction dts with
  | nil =>
    intro _ acc h0 hlt
    refine ⟨h0, hlt, by simp [runFrames], by simp [runFrames]⟩
  | cons d rest ih =>
    intro hdts acc h0 hlt
    have hd : 0 ≤ d := hdts d (List.mem_cons_self d rest)
    have hrest : ∀ x ∈ rest, 0 ≤ x := fun x hx => hdts x (List.mem_cons_of_mem _ hx)
    have hacc : 0 ≤ acc + d / 1000 := by positivity
    have hp0 : 0 ≤ (catchUp fs (acc + d / 1000)).1 := catchUp_fst_nonneg fs _ hacc
    have hplt : (catchUp fs (acc + d / 1000)).1 < fs := catchUp_fst_lt fs hfs _
    have hpsub := catchUp_fst_sub fs (acc + d / 1000)
    obtain ⟨hr0, hrlt, hrsum, hrall⟩ :=
      ih hrest (catchUp fs (acc + d / 1000)).1 hp0 hplt
    simp only [runFrames]
    refine ⟨hr0, hrlt, ?_, ?_⟩
    · rw [hrsum, hpsub]
      simp only [List.map_cons, List.sum_cons, List.sum_cons]
      push_cast
      ring
    · intro t ht
      simp only [List.mem_cons] at ht
      rcases ht with ht | ht
      · subst ht
        exact ⟨rfl, hp0, hplt⟩
      · exact hrall t ht

/-- C1 — Scheduler fixed-step accounting: starting from `accumulator = 0`,
for every sequence of frame ticks with `fixedStep > 0` and nonnegative
wall-clock deltas, after the catch-up loop of each tick the accumulator lies
in `[0, fixedStep)`; the total number of update rounds over the sequence is
`⌊accumulated elapsed seconds / fixedStep⌋`; and the alpha passed to the
render hooks each tick equals `accumulator / fixedStep` and lies in `[0, 1)`. -/
theorem engine_fixed_step_accounting (fs : ℚ) (hfs : 0 < fs) (dts : List ℚ)
    (hdts : ∀ d ∈ dts, 0 ≤ d) :
    0 ≤ (runFrames fs 0 dts).1 ∧ (runFrames fs 0 dts).1 < fs ∧
    ((runFrames fs 0 dts).2.map TickOut.rounds).sum = (⌊(dts.sum / 1000) / fs⌋).toNat ∧
    (∀ t ∈ (runFrames fs 0 dts).2,
      t.alpha = t.acc / fs ∧ 0 ≤ t.alpha ∧ t.alpha < 1 ∧ 0 ≤ t.acc ∧ t.acc < fs) := by
  obtain ⟨h0, hlt, hsum, hall⟩ := runFrames_spec fs hfs dts hdts 0 le_rfl hfs
  refine ⟨h0, hlt, ?_, ?_⟩
  · set N : ℕ := ((runFrames fs 0 dts).2.map TickOut.rounds).sum with hN
    clear_value N
    have hS : (runFrames fs 0 dts).1 = dts.sum / 1000 - (N : ℚ) * fs := by
      rw [hsum]; ring
    have h1 : (N : ℚ) * fs ≤ dts.sum / 1000 := by linarith [hS ▸ h0]
    have h2 : dts.sum / 1000 < ((N : ℚ) + 1) * fs := by
      have := hS ▸ hlt
      linarith
    have hfloor : ⌊(dts.sum / 1000) / fs⌋ = (N : ℤ) := by
      rw [Int.floor_eq_iff]
      constructor
      · rw [le_div_iff₀ hfs]
        exact_mod_cast h1
      · rw [div_lt_iff₀ hfs]
        exact_mod_cast h2
    rw [hfloor]
    exact (Int.toNat_natCast _).symm
  · intro t ht
    obtain ⟨ha, h0t, hlt'⟩ := hall t ht
    refine ⟨ha, ?_, ?_, h0t, hlt'⟩
    · rw [ha]
      positivity
    · rw [ha]
      exact (div_lt_one hfs).mpr hlt'

/-- Witness for C1: one 1500 ms tick at `fixedStep = 1 s` — one update
round, and the leftover accumulator stays in `[0, 1)`. -/
theorem engine_fixed_step_accounting_witness :
    ((runFrames 1 0 [1500]).2.map TickOut.rounds).sum = 1 ∧
    0 ≤ (runFrames 1 0 [1500]).1 ∧ (runFrames 1 0 [1500]).1 < 1 := by
  obtain ⟨h0, hlt, hsum, _⟩ :=
    engine_fixed_step_accounting 1 one_pos [1500] (by norm_num)
  refine ⟨?_, h0, hlt⟩
  rw [hsum]
  norm_num [Int.floor_eq_iff]

/-! ### Engine lifecycle after `stop()` (`Engine.stop`, the `frame` guard and
the wrapped `bus.emit`) -/

/-- A module hook invocation the engine performs, tagged with the module id. -/
inductive HookCall where
  | update (moduleId : String)
  | render (moduleId : String) (alpha : ℚ)
  | onEvent (moduleId : String) (ev : String)
  | destroy (moduleId : String)
deriving DecidableEq, Repr

/-- The engine state the loop machinery reads: the `running` flag and the
time accumulator. -/
structure EngineState where
  running : Bool
  acc : ℚ
deriving DecidableEq, Repr

/-- An external stimulus: a frame callback, a `stop()` call, or a `bus.emit`
reaching the engine's broadcast wrapper. -/
inductive EngineAction where
  | tick (dtMs : ℚ)
  | stop
  | emitEvent (ev : String)

/-- One step of the engine against a stimulus, returning the new state and
the module hooks invoked, in invocation order. `frame` returns immediately
when `running` is false; `stop` clears the flag and calls every module's
`destroy` in registration order; the wrapped `bus.emit` fans the event out to
every module's `onEvent` regardless of the flag. -/
def engineStep (fs : ℚ) (mods : List String) (st : EngineState) :
    EngineAction → EngineState × List HookCall
  | .tick dtMs =>
    if st.running then
      let p := catchUp fs (st.acc + dtMs / 1000)
      (⟨true, p.1⟩,
        (List.replicate p.2 (mods.map HookCall.update)).flatten ++
          mods.map (fun m => HookCall.render m (p.1 / fs)))
    else (st, [])
  | .stop => (⟨false, st.acc⟩, mods.map HookCall.destroy)
  | .emitEvent ev => (st, mods.map (fun m => HookCall.onEvent m ev))

/-- Run a sequence of stimuli, concatenating the hook calls. -/
def runEngine (fs : ℚ) (mods : List String) (st : EngineState) :
    List EngineAction → EngineState × List HookCall
  | [] => (st, [])
  | a :: rest =>
    let p := engineStep fs mods st a
    let r := runEngine fs mods p.1 rest
    (r.1, p.2 ++ r.2)

/-- C9 counterexample — a hook does fire after `stop()` returns: with one
module `"m"`, running `stop` and then an event emission invokes the module's
`onEvent` hook, because the engine's broadcast wrapper on `bus.emit` does not
consult the `running` flag. -/
theorem engine_stop_counterexample :
    (runEngine 1 ["m"] ⟨true, 0⟩ [.stop, .emitEvent "x"]).2 =
      [HookCall.destroy "m", HookCall.onEvent "m" "x"] ∧
    (runEngine 1 ["m"]
        ((runEngine 1 ["m"] ⟨true, 0⟩ [EngineAction.stop]).1)
        [EngineAction.emitEvent "x"]).2 ≠ [] := by
  constructor
  · rfl
  · intro hcon
    simp [runEngine, engineStep] at hcon

/-- C9 amended — `stop()` calls each module's `destroy` exactly once, in
registration order, and clears the running flag; afterwards the frame loop
never invokes another hook (every subsequent frame tick produces no calls and
leaves the flag false). Event emissions, however, still fan out to `onEvent`. -/
theorem engine_stop_semantics (fs : ℚ) (mods : List String) (st : EngineState)
    (dts : List ℚ) :
    (engineStep fs mods st .stop).2 = mods.map HookCall.destroy ∧
    (engineStep fs mods st .stop).1.running = false ∧
    (runEngine fs mods (engineStep fs mods st .stop).1 (dts.map .tick)).2 = [] ∧
    (runEngine fs mods (engineStep fs mods st .stop).1 (dts.map .tick)).1.running =
      false := by
  have key : ∀ (l : List ℚ) (s : EngineState), s.running = false →
      (runEngine fs mods s (l.map .tick)).2 = [] ∧
      (runEngine fs mods s (l.map .tick)).1 = s := by
    intro l
    induction l with
    | nil => intro s hs; exact ⟨rfl, rfl⟩
    | cons d rest ih =>
      intro s hs
      have hstep : engineStep fs mods s (.tick d) = (s, []) := by
        simp [engineStep, hs]
      simp only [List.map_cons, runEngine, hstep]
      obtain ⟨h1, h2⟩ := ih s hs
      simp [h1, h2]
  obtain ⟨h1, h2⟩ := key dts (engineStep fs mods st .stop).1 rfl
  refine ⟨rfl, rfl, h1, ?_⟩
  rw [h2]
  rfl


/-! ### Render coordinator (`src/modules/render-coordinator/index.ts`) -/

/-- Camera state (`Camera2D`): position (meters), rotation, zoom,
pixels-per-meter, and the world-visible rectangle the cull reads
(`(cam as any).viewAABB`, absent on cameras that do not provide one). -/
structure Camera2D where
  posX : ℚ
  posY : ℚ
  rotation : ℚ
  zoom : ℚ
  ppm : ℚ
  viewAABB : Option Aabb
deriving DecidableEq, Repr

/-- One configured render pass (`RenderPassConfig`); `clearBefore` and
`layerOrder` are optional in the source (`clearBefore` is read for
truthiness, `layerOrder ?? []`). -/
structure RenderPassConfig where
  id : String
  space : RenderSpace
  clearBefore : Bool
  layerOrder : Option (List String)
deriving DecidableEq, Repr

/-- A call the coordinator makes on the render backend port. -/
inductive BackendCall where
  | clear
  | beginPass (passId : String) (space : RenderSpace) (camera : Option Camera2D)
  | submitBatch (batch : List RenderCmd)
  | endPass
deriving DecidableEq, Repr

/-- Default world layer ordering hints (`WORLD_LAYERS`). -/
def WORLD_LAYERS : List String :=
  ["background", "terrain", "props", "actors", "effects", "foreground", "overlay"]

/-- Default UI layer ordering hints (`UI_LAYERS`). -/
def UI_LAYERS : List String :=
  ["hud-bg", "hud", "hud-fore", "debug"]

/-- Default render passes in submission order (`DEFAULT_PASSES`). -/
def DEFAULT_PASSES : List RenderPassConfig :=
  [⟨"ui", .ui, false, some UI_LAYERS⟩,
   ⟨"foreground", .world, false, some WORLD_LAYERS⟩,
   ⟨"world", .world, false, some WORLD_LAYERS⟩,
   ⟨"background", .world, false, some WORLD_LAYERS⟩]

/-- The cull filter body: keep a command when it has no bounding box, or when
its box intersects the visibility rectangle
(`a.x + a.w >= vx && a.x <= vx + vw && a.y + a.h >= vy && a.y <= vy + vh`). -/
def aabbVisible (view : Aabb) (c : RenderCmd) : Bool :=
  match c.aabb with
  | none => true
  | some a =>
      decide (a.x + a.w ≥ view.x) && decide (a.x ≤ view.x + view.w) &&
        decide (a.y + a.h ≥ view.y) && decide (a.y ≤ view.y + view.h)

/-- Source `cullAgainstCamera`: cameras without a `viewAABB` keep the whole list
(`list.slice()`); otherwise filter by `aabbVisible`. -/
def cullAgainstCamera (cam : Camera2D) (list : List RenderCmd) : List RenderCmd :=
  match cam.viewAABB with
  | none => list
  | some view => list.filter (aabbVisible view)

/-- The rank the sort gives a layer name: the `Map` built from
`layerOrder.map((l,i) => [l,i])` (later duplicates overwrite earlier ones),
defaulting to `0` for unknown layers (`order.get(layer) ?? 0`). -/
def layerRank (layerOrder : List String) (l : String) : ℕ :=
  (List.lookup l ((layerOrder.enum.map (fun p => (p.2, p.1))).reverse)).getD 0

/-- The lexicographic composite sort key:
`(layerOrder(layer), z ?? 0, material, kind, id ?? "")`. -/
def sortKey (layerOrder : List String) (c : RenderCmd) :
    ℕ ×ₗ ℚ ×ₗ String ×ₗ String ×ₗ String :=
  toLex (layerRank layerOrder c.layer,
    toLex (c.z.getD 0,
      toLex (c.renderMaterial, toLex (c.kind, c.id.getD ""))))

/-- The ordering the comparator in `sortCommands` induces: `a` may precede
`b` iff the comparator does not return a positive number, i.e. iff `a`'s
composite key is ≤ `b`'s. -/
def cmdLE (layerOrder : List String) (a b : RenderCmd) : Prop :=
  sortKey layerOrder a ≤ sortKey layerOrder b

instance (layerOrder : List String) : DecidableRel (cmdLE layerOrder) := fun a b =>
  inferInstanceAs (Decidable (sortKey layerOrder a ≤ sortKey layerOrder b))

instance (layerOrder : List String) : IsTotal RenderCmd (cmdLE layerOrder) :=
  ⟨fun a b => le_total (sortKey layerOrder a) (sortKey layerOrder b)⟩

instance (layerOrder : List String) : IsTrans RenderCmd (cmdLE layerOrder) :=
  ⟨fun _ _ _ h1 h2 => le_trans h1 h2⟩

/-- Source `sortCommands`: stable sort of the list by the comparator (JS
`Array.prototype.sort` is stable; embedded as insertion sort, which computes
the same result for a total preorder). -/
def sortCommands (list : List RenderCmd) (layerOrder : List String) : List RenderCmd :=
  List.insertionSort (cmdLE layerOrder) list

/-- The batching predicate: same `(kind, renderMaterial)` as the batch's
first element. -/
def sameKM (c d : RenderCmd) : Bool :=
  d.kind == c.kind && d.renderMaterial == c.renderMaterial

/-- The batching loop, fuelled by the remaining list length: take the maximal
run sharing the head's `(kind, renderMaterial)`, then continue after it. -/
def batchGo : ℕ → List RenderCmd → List (List RenderCmd)
  | 0, _ => []
  | _ + 1, [] => []
  | n + 1, c :: rest =>
      (c :: rest.takeWhile (sameKM c)) :: batchGo n (rest.dropWhile (sameKM c))

/-- Source `batchByKindAndMaterial`: greedy partition of the sorted sequence into
maximal consecutive runs sharing `(kind, renderMaterial)`. -/
def batchByKindAndMaterial (list : List RenderCmd) : List (List RenderCmd) :=
  batchGo list.length list

/-- The `visible` local of `render()`: world passes cull against the camera,
UI passes do not. -/
def passVisible (cam : Camera2D) (p : RenderPassConfig) (cmds : List RenderCmd) :
    List RenderCmd :=
  if p.space = .world then cullAgainstCamera cam cmds else cmds

/-- The `sorted` local of `render()`: the surviving commands sorted with the
pass's layer order (`p.layerOrder ?? []`). -/
def passSorted (cam : Camera2D) (p : RenderPassConfig) (cmds : List RenderCmd) :
    List RenderCmd :=
  sortCommands (passVisible cam p cmds) (p.layerOrder.getD [])

/-- The calls `render()` makes for one pass, given the drained buffer: skip
the pass when the drain is empty; otherwise optional `clear`, then
`beginPass`, one `submitBatch` per batch, `endPass`. World passes cull
against the camera and pass it to `beginPass`; UI passes do not. -/
def passCalls (cam : Camera2D) (p : RenderPassConfig) (cmds : List RenderCmd) :
    List BackendCall :=
  if cmds.isEmpty then []
  else
    (if p.clearBefore then [BackendCall.clear] else []) ++
      BackendCall.beginPass p.id p.space
          (if p.space = .world then some cam else none) ::
        (batchByKindAndMaterial (passSorted cam p cmds)).map BackendCall.submitBatch ++
        [BackendCall.endPass]

/-- The per-pass loop of `render()`: drain each configured pass in order and
emit its calls. -/
def renderPasses (cam : Camera2D) :
    List RenderPassConfig → QueueState → List BackendCall × QueueState
  | [], q => ([], q)
  | p :: rest, q =>
    let d := qDrain q p.id
    let r := renderPasses cam rest d.2
    (passCalls cam p d.1 ++ r.1, r.2)

/-- One whole `render()` call: optional frame-level `clear`
(`clearEachFrame`, default true), then every configured pass in order. -/
def renderFrame (cam : Camera2D) (clearEachFrame : Bool)
    (passes : List RenderPassConfig) (q : QueueState) :
    List BackendCall × QueueState :=
  ((if clearEachFrame then [BackendCall.clear] else []) ++
      (renderPasses cam passes q).1,
    (renderPasses cam passes q).2)

/-- Calls that are part of the per-pass begin/submit/end protocol (everything
except `clear`). -/
def isProtocolCall : BackendCall → Bool
  | .clear => false
  | _ => true

theorem sameKM_iff (c d : RenderCmd) :
    sameKM c d = true ↔ d.kind = c.kind ∧ d.renderMaterial = c.renderMaterial := by
  simp [sameKM]

theorem head?_mem {α : Type} {l : List α} {a : α} (h : l.head? = some a) : a ∈ l := by
  cases l with
  | nil => simp at h
  | cons x t =>
    simp only [List.head?_cons, Option.some_inj] at h
    simp [← h]

/-- Full specification of the batching loop, given sufficient fuel: the
batches concatenate back to the input, every batch is a nonempty run of
commands sharing `(kind, renderMaterial)`, adjacent batches differ in
`(kind, renderMaterial)` (maximality), and the first batch starts where the
input starts. -/
theorem batchGo_spec : ∀ (n : ℕ) (l : List RenderCmd), l.length ≤ n →
    (batchGo n l).flatten = l ∧
    (∀ b ∈ batchGo n l, b ≠ [] ∧
      ∀ c₁ ∈ b, ∀ c₂ ∈ b, c₁.kind = c₂.kind ∧ c₁.renderMaterial = c₂.renderMaterial) ∧
    List.Chain'
      (fun b₁ b₂ => ∀ c₁ ∈ b₁, ∀ c₂ ∈ b₂,
        ¬(c₁.kind = c₂.kind ∧ c₁.renderMaterial = c₂.renderMaterial))
      (batchGo n l) ∧
    (∀ b, (batchGo n l).head? = some b → b.head? = l.head?) := by
  intro n
  induction n with
  | zero =>
    intro l hl
    have hnil : l = [] := List.length_eq_zero.mp (Nat.le_zero.mp hl)
    subst hnil
    exact ⟨rfl, by simp [batchGo], by simp [batchGo], by simp [batchGo]⟩
  | succ n ih =>
    intro l hl
    cases l with
    | nil => exact ⟨rfl, by simp [batchGo], by simp [batchGo], by simp [batchGo]⟩
    | cons c rest =>
      have hlen : (rest.dropWhile (sameKM c)).length ≤ n := by
        have h1 : (rest.dropWhile (sameKM c)).length ≤ rest.length :=
          (rest.dropWhile_sublist (sameKM c)).length_le
        simp only [List.length_cons] at hl
        omega
      obtain ⟨ihJ, ihB, ihC, ihH⟩ := ih _ hlen
      have hFirstKM : ∀ x ∈ c :: rest.takeWhile (sameKM c),
          x.kind = c.kind ∧ x.renderMaterial = c.renderMaterial := by
        intro x hx
        rcases List.mem_cons.mp hx with hx | hx
        · simp [hx]
        · exact (sameKM_iff c x).mp (List.mem_takeWhile_imp hx)
      refine ⟨?_, ?_, ?_, ?_⟩
      · simp only [batchGo, List.flatten_cons, ihJ, List.cons_append]
        rw [List.takeWhile_append_dropWhile]
      · intro b hb
        simp only [batchGo, List.mem_cons] at hb
        rcases hb with hb | hb
        · subst hb
          refine ⟨by simp, ?_⟩
          intro c₁ hc₁ c₂ hc₂
          obtain ⟨hk₁, hm₁⟩ := hFirstKM c₁ hc₁
          obtain ⟨hk₂, hm₂⟩ := hFirstKM c₂ hc₂
          exact ⟨hk₁.trans hk₂.symm, hm₁.trans hm₂.symm⟩
        · exact ihB b hb
      · simp only [batchGo]
        rw [List.chain'_cons']
        refine ⟨?_, ihC⟩
        intro b₂ hb₂
        rw [Option.mem_def] at hb₂
        have hb₂head := ihH b₂ hb₂
        have hb₂mem : b₂ ∈ batchGo n (rest.dropWhile (sameKM c)) := head?_mem hb₂
        have hb₂ne := (ihB b₂ hb₂mem).1
        cases hdw : (rest.dropWhile (sameKM c)).head? with
        | none =>
          rw [hdw] at hb₂head
          exact absurd (List.head?_eq_none_iff.mp hb₂head) hb₂ne
        | some h₂ =>
          rw [hdw] at hb₂head
          have hh₂mem : h₂ ∈ b₂ := head?_mem hb₂head
          have hfalse : sameKM c h₂ = false := by
            have hnot := List.head?_dropWhile_not (sameKM c) rest
            rw [hdw] at hnot
            exact hnot
          intro c₁ hc₁ c₂ hc₂ hcon
          obtain ⟨hk₁, hm₁⟩ := hFirstKM c₁ hc₁
          obtain ⟨hk₂, hm₂⟩ := (ihB b₂ hb₂mem).2 c₂ hc₂ h₂ hh₂mem
          have htrue : sameKM c h₂ = true := by
            rw [sameKM_iff]
            exact ⟨hk₂.symm.trans (hcon.1.symm.trans hk₁),
              hm₂.symm.trans (hcon.2.symm.trans hm₁)⟩
          rw [hfalse] at htrue
          exact Bool.noConfusion htrue
      · intro b hb
        simp only [batchGo, List.head?_cons, Option.some_inj] at hb
        rw [← hb]
        rfl

/-- The batching spec instantiated at the exact fuel the source uses. -/
theorem batchByKindAndMaterial_spec (l : List RenderCmd) :
    (batchByKindAndMaterial l).flatten = l ∧
    (∀ b ∈ batchByKindAndMaterial l, b ≠ [] ∧
      ∀ c₁ ∈ b, ∀ c₂ ∈ b, c₁.kind = c₂.kind ∧ c₁.renderMaterial = c₂.renderMaterial) ∧
    List.Chain'
      (fun b₁ b₂ => ∀ c₁ ∈ b₁, ∀ c₂ ∈ b₂,
        ¬(c₁.kind = c₂.kind ∧ c₁.renderMaterial = c₂.renderMaterial))
      (batchByKindAndMaterial l) := by
  obtain ⟨h1, h2, h3, _⟩ := batchGo_spec l.length l le_rfl
  exact ⟨h1, h2, h3⟩

/-- C3 — Deterministic draw order: the sort orders commands nondecreasingly
by the lexicographic composite key (layer rank with unknown layers ranked 0,
then `z ?? 0`, then material, then kind, then `id ?? ""`), keeps exactly the
input commands (a permutation), and the backend call sequence is a pure
function of the input: identical command lists produce identical call
sequences. -/
theorem render_sort_deterministic (layerOrder : List String)
    (cmds cmds₂ : List RenderCmd) :
    List.Sorted (cmdLE layerOrder) (sortCommands cmds layerOrder) ∧
    (sortCommands cmds layerOrder).Perm cmds ∧
    (∀ (cam : Camera2D) (p : RenderPassConfig), cmds = cmds₂ →
      passCalls cam p cmds = passCalls cam p cmds₂) := by
  refine ⟨List.sorted_insertionSort _ _, List.perm_insertionSort _ _, ?_⟩
  intro cam p h
  rw [h]

/-- Witness for C3 at a concrete command list. -/
theorem render_sort_deterministic_witness :
    passCalls ⟨0, 0, 0, 1, 50, none⟩ ⟨"ui", .ui, false, none⟩
        [⟨none, "ui", .ui, "hud", none, "flat/white", none, "rect"⟩] =
      passCalls ⟨0, 0, 0, 1, 50, none⟩ ⟨"ui", .ui, false, none⟩
        [⟨none, "ui", .ui, "hud", none, "flat/white", none, "rect"⟩] :=
  (render_sort_deterministic []
      [⟨none, "ui", .ui, "hud", none, "flat/white", none, "rect"⟩]
      [⟨none, "ui", .ui, "hud", none, "flat/white", none, "rect"⟩]).2.2
    ⟨0, 0, 0, 1, 50, none⟩ ⟨"ui", .ui, false, none⟩ rfl

/-- C4 — Batching and backend protocol: an empty drained buffer produces no
backend calls for the pass; a nonempty one produces exactly one `beginPass`,
one `submitBatch` per batch in order, then one `endPass` (ignoring the
optional `clear`), where the batches are nonempty maximal consecutive runs
of the sorted sequence sharing `(kind, material)` and concatenate back to
the sorted sequence. -/
theorem render_batching_protocol (cam : Camera2D) (p : RenderPassConfig)
    (cmds : List RenderCmd) :
    (cmds = [] → passCalls cam p cmds = []) ∧
    (cmds ≠ [] →
      (passCalls cam p cmds).filter isProtocolCall =
        BackendCall.beginPass p.id p.space
            (if p.space = .world then some cam else none) ::
          (batchByKindAndMaterial (passSorted cam p cmds)).map
              BackendCall.submitBatch ++
          [BackendCall.endPass]) ∧
    (batchByKindAndMaterial (passSorted cam p cmds)).flatten =
      passSorted cam p cmds ∧
    (∀ b ∈ batchByKindAndMaterial (passSorted cam p cmds), b ≠ [] ∧
      ∀ c₁ ∈ b, ∀ c₂ ∈ b, c₁.kind = c₂.kind ∧ c₁.renderMaterial = c₂.renderMaterial) ∧
    List.Chain'
      (fun b₁ b₂ => ∀ c₁ ∈ b₁, ∀ c₂ ∈ b₂,
        ¬(c₁.kind = c₂.kind ∧ c₁.renderMaterial = c₂.renderMaterial))
      (batchByKindAndMaterial (passSorted cam p cmds)) := by
  obtain ⟨hJ, hB, hC⟩ := batchByKindAndMaterial_spec (passSorted cam p cmds)
  refine ⟨?_, ?_, hJ, hB, hC⟩
  · intro h
    subst h
    rfl
  · intro hne
    obtain ⟨c, t, rfl⟩ := List.exists_cons_of_ne_nil hne
    have hall : ∀ a ∈ BackendCall.beginPass p.id p.space
          (if p.space = .world then some cam else none) ::
          (batchByKindAndMaterial (passSorted cam p (c :: t))).map
              BackendCall.submitBatch ++
          [BackendCall.endPass], isProtocolCall a = true := by
      intro a ha
      rcases List.mem_cons.mp ha with ha | ha
      · subst ha; rfl
      · rcases List.mem_append.mp ha with ha | ha
        · rcases List.mem_map.mp ha with ⟨b, _, rfl⟩
          rfl
        · rw [List.mem_singleton.mp ha]
          rfl
    cases hcb : p.clearBefore with
    | false =>
      simp only [passCalls, List.isEmpty_cons, hcb, Bool.false_eq_true, if_false,
        List.nil_append]
      exact List.filter_eq_self.mpr hall
    | true =>
      simp only [passCalls, List.isEmpty_cons, hcb, Bool.false_eq_true, if_true,
        List.singleton_append, List.filter_cons]
      rw [if_neg (by simp [isProtocolCall])]
      exact List.filter_eq_self.mpr hall

/-- Witness for C4 at a concrete nonempty buffer. -/
theorem render_batching_protocol_witness :
    ([⟨none, "ui", .ui, "hud", none, "flat/white", none, "rect"⟩] :
        List RenderCmd) ≠ [] ∧
    (batchByKindAndMaterial
        (passSorted ⟨0, 0, 0, 1, 50, none⟩ ⟨"ui", .ui, false, none⟩
          [⟨none, "ui", .ui, "hud", none, "flat/white", none, "rect"⟩])).flatten =
      passSorted ⟨0, 0, 0, 1, 50, none⟩ ⟨"ui", .ui, false, none⟩
        [⟨none, "ui", .ui, "hud", none, "flat/white", none, "rect"⟩] := by
  constructor
  · simp
  · exact (render_batching_protocol ⟨0, 0, 0, 1, 50, none⟩ ⟨"ui", .ui, false, none⟩
      [⟨none, "ui", .ui, "hud", none, "flat/white", none, "rect"⟩]).2.2.1

/-- The camera of the spec's concrete culling scenario: visible rect
`{x:-1, y:-1, w:3, h:3}`. -/
def scenarioCam : Camera2D := ⟨0, 0, 0, 1, 50, some ⟨-1, -1, 3, 3⟩⟩

/-- First scenario command: `rect` on pass `"world"`, z 0, material
`"flat/blue"`, aabb `{0,0,1,1}`. -/
def scenarioCmd1 : RenderCmd :=
  ⟨none, "world", .world, "actors", some 0, "flat/blue", some ⟨0, 0, 1, 1⟩, "rect"⟩

/-- Second scenario command: `rect` on pass `"world"`, z 1, material
`"flat/blue"`, aabb `{10,10,1,1}`. -/
def scenarioCmd2 : RenderCmd :=
  ⟨none, "world", .world, "actors", some 1, "flat/blue", some ⟨10, 10, 1, 1⟩, "rect"⟩

/-- The `"world"` pass as configured in `DEFAULT_PASSES`. -/
def scenarioPass : RenderPassConfig := ⟨"world", .world, false, some WORLD_LAYERS⟩

/-- C5 — World-pass culling: with a camera that has a visibility rectangle,
culling only ever removes commands (a sublist), never removes a command
without a bounding box, keeps exactly the commands whose box intersects the
rectangle, and removes those whose box does not; in the spec's concrete
scenario the first rect survives alone and reaches the backend in a single
`submitBatch` of length 1 bracketed by one `beginPass`/`endPass` pair. -/
theorem world_pass_culling :
    (∀ (cam : Camera2D) (view : Aabb) (cmds : List RenderCmd),
      cam.viewAABB = some view →
      List.Sublist (cullAgainstCamera cam cmds) cmds ∧
      (∀ c ∈ cmds, c.aabb = none → c ∈ cullAgainstCamera cam cmds) ∧
      (∀ c ∈ cullAgainstCamera cam cmds, ∀ a : Aabb, c.aabb = some a →
        a.x + a.w ≥ view.x ∧ a.x ≤ view.x + view.w ∧
          a.y + a.h ≥ view.y ∧ a.y ≤ view.y + view.h) ∧
      (∀ c ∈ cmds, ∀ a : Aabb, c.aabb = some a →
        ¬(a.x + a.w ≥ view.x ∧ a.x ≤ view.x + view.w ∧
            a.y + a.h ≥ view.y ∧ a.y ≤ view.y + view.h) →
        c ∉ cullAgainstCamera cam cmds)) ∧
    renderFrame scenarioCam true [scenarioPass]
        (qPushMany [] [scenarioCmd1, scenarioCmd2]) =
      ([BackendCall.clear,
        BackendCall.beginPass "world" .world (some scenarioCam),
        BackendCall.submitBatch [scenarioCmd1],
        BackendCall.endPass],
       [("world", [])]) := by
  constructor
  · intro cam view cmds h
    have hcull : cullAgainstCamera cam cmds = cmds.filter (aabbVisible view) := by
      unfold cullAgainstCamera
      rw [h]
    refine ⟨?_, ?_, ?_, ?_⟩
    · rw [hcull]
      exact List.filter_sublist cmds
    · intro c hc hnone
      rw [hcull, List.mem_filter]
      exact ⟨hc, by simp [aabbVisible, hnone]⟩
    · intro c hc a ha
      rw [hcull, List.mem_filter] at hc
      have hvis := hc.2
      rw [aabbVisible, ha] at hvis
      simp only [Bool.and_eq_true, decide_eq_true_eq] at hvis
      exact ⟨hvis.1.1.1, hvis.1.1.2, hvis.1.2, hvis.2⟩
    · intro c _ a ha hnot hmem
      rw [hcull, List.mem_filter] at hmem
      have hvis := hmem.2
      rw [aabbVisible, ha] at hvis
      simp only [Bool.and_eq_true, decide_eq_true_eq] at hvis
      exact hnot ⟨hvis.1.1.1, hvis.1.1.2, hvis.1.2, hvis.2⟩
  · have hv1 : aabbVisible ⟨-1, -1, 3, 3⟩ scenarioCmd1 = true := by
      simp only [aabbVisible, scenarioCmd1, Bool.and_eq_true, decide_eq_true_eq]
      norm_num
    have h10 : ¬((10 : ℚ) ≤ -1 + 3) := by norm_num
    have hv2 : aabbVisible ⟨-1, -1, 3, 3⟩ scenarioCmd2 = false := by
      simp only [aabbVisible, scenarioCmd2]
      rw [decide_eq_false h10]
      simp
    have hcull : cullAgainstCamera scenarioCam [scenarioCmd1, scenarioCmd2] =
        [scenarioCmd1] := by
      simp [cullAgainstCamera, scenarioCam, List.filter_cons, hv1, hv2]
    have hsorted : passSorted scenarioCam scenarioPass [scenarioCmd1, scenarioCmd2] =
        [scenarioCmd1] := by
      unfold passSorted passVisible
      rw [if_pos (show scenarioPass.space = RenderSpace.world from rfl), hcull]
      simp [sortCommands]
    have hbatch : batchByKindAndMaterial [scenarioCmd1] = [[scenarioCmd1]] := rfl
    have hpass : passCalls scenarioCam scenarioPass [scenarioCmd1, scenarioCmd2] =
        [BackendCall.beginPass "world" .world (some scenarioCam),
         BackendCall.submitBatch [scenarioCmd1],
         BackendCall.endPass] := by
      unfold passCalls
      rw [if_neg (by simp), if_neg (by simp [scenarioPass]),
        if_pos (show scenarioPass.space = RenderSpace.world from rfl),
        hsorted, hbatch]
      rfl
    have hframe : renderFrame scenarioCam true [scenarioPass]
          (qPushMany [] [scenarioCmd1, scenarioCmd2]) =
        ([BackendCall.clear] ++
            (passCalls scenarioCam scenarioPass [scenarioCmd1, scenarioCmd2] ++ []),
          ([("world", [])] : QueueState)) := rfl
    rw [hframe, hpass]
    rfl

/-- Witness for C5: the second scenario rect (box `{10,10,1,1}`) is culled
against the scenario camera's visible rect `{-1,-1,3,3}`. -/
theorem world_pass_culling_witness :
    scenarioCam.viewAABB = some ⟨-1, -1, 3, 3⟩ ∧
    scenarioCmd2 ∉ cullAgainstCamera scenarioCam [scenarioCmd1, scenarioCmd2] := by
  refine ⟨rfl, ?_⟩
  have h10 : ¬((10 : ℚ) ≤ -1 + 3) := by norm_num
  exact (world_pass_culling.1 scenarioCam ⟨-1, -1, 3, 3⟩
      [scenarioCmd1, scenarioCmd2] rfl).2.2.2 scenarioCmd2 (by simp)
    ⟨10, 10, 1, 1⟩ rfl (fun hcon => h10 hcon.2.1)

end Platform2D
